import Mathlib

/-!
# Verification of the Alaska award scraper core (`alaska_scraper.py`)

A shallow embedding of the pure core of the scraper: the calendar-cell
parser (`parse_cell`), the run-length day compression (`compress_days`),
the points formatter (`fmt_points`), the two-pass route reducer
(`scrape_route`, pass 1 discovery / pass 2 filtering), and the cells of
the output table (`build_dataframe`).

Modelling conventions:
* Python strings are `String` / `List Char`; `None` is `Option.none`.
* The regexes of `parse_cell` are unfolded into explicit scans.  For the
  pattern `([\d.]+)k` the greedy capture group is always the full maximal
  run of digits/dots before the `k` (a shorter backtracked group would end
  on a digit or dot, never on `k`), so a left-to-right scan over maximal
  runs is an exact model.  `re.IGNORECASE` on the literal `k` is modelled
  as accepting `k` and `K`.
* `int(float(g) * 1000)` is modelled by exact rational truncation
  (integer part times 1000 plus the first three fractional digits); the
  inputs appearing in the specification are exactly representable as IEEE
  doubles, where the two computations agree.  `float(g)` raises
  `ValueError` when `g` has no digit or more than one dot; the raised
  exception is modelled as the distinguished outcome `ParseOutcome.error`.
* Python truthiness tests (`if not days`, `if tax`, `if pts_d`) are
  modelled explicitly (`[]`/`none`/`0`/`""` are falsy).
-/

namespace AlaskaScraper

/-- One decimal digit as a character (`str` rendering of a digit). -/
def digitChar (n : Nat) : Char :=
  match n with
  | 0 => '0' | 1 => '1' | 2 => '2' | 3 => '3' | 4 => '4'
  | 5 => '5' | 6 => '6' | 7 => '7' | 8 => '8' | _ => '9'

/-- Decimal rendering, fuel-indexed so that it is structural (the fuel
`n + 1` always suffices). -/
def natToCharsAux : Nat → Nat → List Char
  | 0, _ => []
  | fuel + 1, n =>
    if n < 10 then [digitChar n]
    else natToCharsAux fuel (n / 10) ++ [digitChar (n % 10)]

/-- Decimal rendering of a natural number, as Python's `str(n)`. -/
def natToChars (n : Nat) : List Char := natToCharsAux (n + 1) n

/-- Value of a string of decimal digit characters, as Python's `int(s)`. -/
def charsToNat (l : List Char) : Nat :=
  l.foldl (fun acc c => acc * 10 + (c.toNat - 48)) 0

/-- Python `str.strip()`: drop whitespace from both ends. -/
def trimChars (l : List Char) : List Char :=
  ((l.dropWhile Char.isWhitespace).reverse.dropWhile Char.isWhitespace).reverse

/-- A character matched by the class `[\d.]`. -/
def isPtChar (c : Char) : Bool := c.isDigit || c == '.'

/-- Model of `re.search(r"([\d.]+)k", text, re.IGNORECASE)`: the captured group of
the leftmost match.  A backtracked (shorter) group would end on a digit
or dot rather than on `k`, so a match starting inside a maximal digit/dot
run succeeds exactly where the full run does; scanning positions left to
right and testing the maximal run at each digit/dot position is therefore
an exact model of the regex search. -/
def findKToken : List Char → Option (List Char)
  | [] => none
  | c :: cs =>
    if isPtChar c then
      match cs.dropWhile isPtChar with
      | k :: _ =>
        if k == 'k' || k == 'K' then some (c :: cs.takeWhile isPtChar)
        else findKToken cs
      | [] => findKToken cs
    else findKToken cs

/-- Conversion `int(float(g) * 1000)` for a captured group `g` of digits and dots.
`none` models the `ValueError` raised by `float` when the group has no
digit or more than one dot; otherwise the value is the exact truncation
of `float(g) * 1000` (integer part times 1000 plus the first three
fractional digits, zero-padded). -/
def tokenPoints (tok : List Char) : Option Nat :=
  if 2 ≤ (tok.filter (fun c => c == '.')).length then none
  else if (tok.filter Char.isDigit).length = 0 then none
  else
    let ip := tok.takeWhile (fun c => c ≠ '.')
    let fp := (tok.dropWhile (fun c => c ≠ '.')).drop 1
    some (charsToNat ip * 1000 +
      charsToNat ((fp.take 3) ++ List.replicate (3 - fp.length) '0'))

/-- The part of `re.search(r"\+\s*\$(\d+(?:\.\d{1,2})?)", text)` after a
candidate `+`: optional whitespace, `$`, digits, optionally a dot and one
or two further digits.  Returns the captured group. -/
def taxAfterPlus (cs : List Char) : Option (List Char) :=
  match cs.dropWhile Char.isWhitespace with
  | '$' :: rest =>
    let ds := rest.takeWhile Char.isDigit
    if ds.isEmpty then none
    else
      match rest.dropWhile Char.isDigit with
      | '.' :: r2 =>
        let fs := (r2.takeWhile Char.isDigit).take 2
        if fs.isEmpty then some ds else some (ds ++ '.' :: fs)
      | _ => some ds
  | _ => none

/-- Leftmost match of the tax pattern: scan for a `+` whose suffix
matches. -/
def findTax : List Char → Option (List Char)
  | [] => none
  | c :: cs =>
    if c == '+' then
      match taxAfterPlus cs with
      | some g => some g
      | none => findTax cs
    else findTax cs

/-- The three possible outcomes of `parse_cell`: a raised `ValueError`,
`None`, or a `(day, points, tax)` record. -/
inductive ParseOutcome where
  | error : ParseOutcome
  | noparse : ParseOutcome
  | cell (day : Nat) (points : Nat) (tax : Option String) : ParseOutcome
deriving DecidableEq, Repr

/-- Python `parse_cell(text)` (src/alaska_scraper.py lines 54-70): strip, match a
leading 1-2 digit day, search the points token `([\d.]+)k`
(case-insensitive), convert (`ValueError` → `.error`), search the
optional tax token. -/
def parse_cell (s : String) : ParseOutcome :=
  let text := trimChars s.toList
  match text with
  | [] => ParseOutcome.noparse
  | c :: _ =>
    if c.isDigit then
      let day := charsToNat ((text.takeWhile Char.isDigit).take 2)
      match findKToken text with
      | none => ParseOutcome.noparse
      | some tok =>
        match tokenPoints tok with
        | none => ParseOutcome.error
        | some pts =>
          ParseOutcome.cell day pts ((findTax text).map (fun g => String.mk ('$' :: g)))
    else ParseOutcome.noparse

/-- Insert into a strictly sorted list, dropping duplicates.  Folding
this over the input models Python's `sorted(set(days))`. -/
def insertSorted (x : Nat) : List Nat → List Nat
  | [] => [x]
  | y :: ys =>
    if x < y then x :: y :: ys
    else if x = y then y :: ys
    else y :: insertSorted x ys

/-- Model of `sorted(set(days))`: the strictly ascending list of the distinct
elements of `days`. -/
def sortedDedup (l : List Nat) : List Nat := l.foldr insertSorted []

/-- One run of `compress_days`: `str(start)` for a singleton run,
`f"{start}-{prev}"` otherwise. -/
def renderRun (start prev : Nat) : List Char :=
  if start = prev then natToChars start
  else natToChars start ++ '-' :: natToChars prev

/-- The loop of `compress_days` (src/alaska_scraper.py lines 76-84):
absorb each `d` into the current run while `d == prev + 1`, otherwise
emit the run and start a new one; emit the final run at the end. -/
def runsAux (start prev : Nat) : List Nat → List (List Char)
  | [] => [renderRun start prev]
  | d :: ds =>
    if d = prev + 1 then runsAux start d ds
    else renderRun start prev :: runsAux d d ds

/-- Comma join `",".join(parts)`. -/
def joinComma : List (List Char) → List Char
  | [] => []
  | [p] => p
  | p :: ps => p ++ ',' :: joinComma ps

/-- Python `compress_days(days)` (src/alaska_scraper.py lines 72-85).  The
source returns `""` up front when `days` is falsy; that is the (only)
case in which `sorted(set(days))` is empty, so matching on `sortedDedup`
is equivalent. -/
def compress_days (days : List Nat) : String :=
  match sortedDedup days with
  | [] => ""
  | d :: ds => String.mk (joinComma (runsAux d d ds))

/-- Round `pts / 100` to the nearest integer, halves to even: the number
of tenths shown by `f"{pts / 1000:.1f}"`.  The source formats the IEEE
double `pts / 1000`; exact half-even rounding agrees with it except
possibly when `pts % 100 = 50`, where the double's position relative to
the half decides the digit — no value named by the specification is of
that form. -/
def roundTenths (pts : Nat) : Nat :=
  if pts % 100 * 2 < 100 then pts / 100
  else if 100 < pts % 100 * 2 then pts / 100 + 1
  else if pts / 100 % 2 = 0 then pts / 100 else pts / 100 + 1

/-- Python `fmt_points(pts)` (src/alaska_scraper.py lines 87-88). -/
def fmt_points (pts : Nat) : String :=
  if pts % 1000 = 0 then toString (pts / 1000) ++ "k"
  else toString (roundTenths pts / 10) ++ "." ++ toString (roundTenths pts % 10) ++ "k"

/-- One `(day, points, tax)` record produced by the cell parser; the
element type of the per-month cache in `scrape_route`. -/
structure DayPrice where
  day : Nat
  points : Nat
  tax : Option String
deriving DecidableEq, Repr

/-- The value returned by `scrape_route`: per-month matching day lists
(in the order of the configured month window), the absolute minimum, and
the representative tax.  In the source's no-availability branch the month
map holds empty strings rather than empty lists; both are falsy and both
compress to `""`, so empty lists model that branch. -/
structure RouteResult where
  monthDays : List (List Nat)
  absMin : Option Nat
  typicalTax : Option String
deriving DecidableEq, Repr

/-- Pass 1 points collection: `all_pts`, every points value with
`pts <= max_pts`, in scan order over months and records. -/
def allPts (cache : List (List DayPrice)) (maxPts : Nat) : List Nat :=
  (cache.map (fun month =>
    month.filterMap (fun r => if r.points ≤ maxPts then some r.points else none))).flatten

/-- Pass 1 tax collection: `all_taxes`, every truthy tax value (Python
`if tax:` skips both `None` and `""`), regardless of the points value. -/
def allTaxes (cache : List (List DayPrice)) : List String :=
  (cache.map (fun month =>
    month.filterMap (fun r =>
      match r.tax with
      | some t => if t = "" then none else some t
      | none => none))).flatten

/-- Python `min(l)` for a possibly empty list. -/
def listMin : List Nat → Option Nat
  | [] => none
  | x :: xs =>
    match listMin xs with
    | none => some x
    | some m => some (min x m)

/-- Occurrences of `x` in `l`: Python's `l.count(x)`. -/
def countOcc (l : List String) (x : String) : Nat :=
  (l.filter (fun y => y = x)).length

/-- Model of `max(set(l), key=l.count) if l else None`.  Python iterates the hash
set in an unspecified order, so the original pins no tie-break; this
model scans the list itself and keeps the first value whose count is not
exceeded later.  The theorems below assert only tie-robust facts (the
result occurs in `l` with maximal count). -/
def mostCommon (l : List String) : Option String :=
  l.foldl (fun acc x =>
    match acc with
    | none => some x
    | some b => if countOcc l b < countOcc l x then some x else some b) none

/-- The two-pass reduction of `scrape_route` (src/alaska_scraper.py
lines 546-575), taking the month cache as given (the fetch collaborator
is outside the core).  Pass 1 collects `all_pts`/`all_taxes`; with no
eligible points the route yields empty day lists and undefined
minimum/tax; otherwise pass 2 keeps exactly the days whose points equal
the absolute minimum. -/
def scrape_route (cache : List (List DayPrice)) (maxPts : Nat) : RouteResult :=
  match listMin (allPts cache maxPts) with
  | none => ⟨cache.map (fun _ => []), none, none⟩
  | some m =>
    ⟨cache.map (fun month =>
        month.filterMap (fun r => if r.points = m then some r.day else none)),
      some m, mostCommon (allTaxes cache)⟩

/-- The summary points cell of `build_dataframe`
(src/alaska_scraper.py line 633): `fmt_points(pts) if pts else ""` —
a truthiness test, so both `None` and `0` give `""`. -/
def pointsCell : Option Nat → String
  | none => ""
  | some p => if p = 0 then "" else fmt_points p

/-- The summary tax cell of `build_dataframe` (line 635):
`data.get(...) or ""`. -/
def taxCell : Option String → String
  | none => ""
  | some t => if t = "" then "" else t

/-- One output row (src/alaska_scraper.py lines 623-637): identity
columns, empty boundary-month columns, the compressed month cells of the
two directions, and the four summary columns. -/
def buildRow (dest origin : String) (rd rr : RouteResult) : List String :=
  [dest, origin, "", "", ""]
    ++ ((rd.monthDays.map compress_days).zip (rr.monthDays.map compress_days)).flatMap
        (fun p => [p.1, p.2])
    ++ ["", ""]
    ++ [pointsCell rd.absMin, pointsCell rr.absMin,
        taxCell rd.typicalTax, taxCell rr.typicalTax]

/-- Python `build_dataframe(results)` (lines 615-646): one row per airport, in
input order. -/
def build_dataframe (dest : String)
    (results : List (String × RouteResult × RouteResult)) : List (List String) :=
  results.map (fun e => buildRow dest e.1 e.2.1 e.2.2)

/-- Python `parse_current_month` (lines 479-493): parse every cell text, keep
in-range records, and silently skip both `None` results and raised
exceptions (`except Exception: continue`). -/
def parse_current_month (cells : List String) (maxDay : Nat) :
    List (Nat × Nat × Option String) :=
  cells.filterMap (fun s =>
    match parse_cell s with
    | ParseOutcome.cell d p t => if 1 ≤ d ∧ d ≤ maxDay then some (d, p, t) else none
    | _ => none)

/-! ## Definitions taken from the specification's words

The following definitions do not model source code; they formalise the
spec side of refinement-style claims (decompression for the round-trip
claim, the claimed eligible-tax mode, and the claimed parseable-cell
shape) and are compared against the source-derived definitions above. -/

/-- Split on the comma character (the claim's "splitting the string
produced by the compression function on commas"). -/
def splitOnComma : List Char → List (List Char)
  | [] => [[]]
  | c :: cs =>
    if c = ',' then [] :: splitOnComma cs
    else
      match splitOnComma cs with
      | [] => [[c]]
      | p :: ps => (c :: p) :: ps

/-- Expand one comma-separated part (the claim's "expanding each
first-last range back into the integers first..last"): a part without a
dash is a single day; a part `a-b` is the full range `a..b`. -/
def expandPart (p : List Char) : List Nat :=
  match p.dropWhile (fun c => c != '-') with
  | [] => [charsToNat p]
  | _ :: b =>
    List.range' (charsToNat (p.takeWhile (fun c => c != '-')))
      (charsToNat b - charsToNat (p.takeWhile (fun c => c != '-')) + 1)

/-- Decompression as described by the round-trip claim: split on commas
and expand every part; the empty string denotes the empty day set. -/
def decompress (s : String) : List Nat :=
  match s.toList with
  | [] => []
  | c :: cs => ((splitOnComma (c :: cs)).map expandPart).flatten

/-- A token that is a decimal number: at least one digit, only digits
and at most one dot. -/
def isDecimalTok (tok : List Char) : Bool :=
  tok.any Char.isDigit && tok.all isPtChar &&
    (tok.filter (fun c => c == '.')).length ≤ 1

/-- The cell shape claimed parseable: digits at the start and, somewhere
in the (stripped) text, a decimal number immediately followed by `k` or
`K`.  Formalised from the claim's words, by brute force over all
substrings. -/
def claimShapeB (s : String) : Bool :=
  let t := trimChars s.toList
  (match t with
    | c :: _ => c.isDigit
    | [] => false) &&
  (List.range t.length).any (fun i =>
    (List.range (t.length - i)).any (fun len =>
      isDecimalTok ((t.drop i).take (len + 1)) &&
        (match t.drop (i + len + 1) with
          | k :: _ => k == 'k' || k == 'K'
          | [] => false)))

/-- The exact condition under which `parse_cell` returns `None`: the
stripped text has no leading digit, or no digit/dot run immediately
followed by `k`/`K`. -/
def lacksShape (s : String) : Bool :=
  let t := trimChars s.toList
  (match t with
    | c :: _ => !c.isDigit
    | [] => true) || (findKToken t).isNone

/-- Representative tax as the claim words it: the mode over the taxes of
exactly the threshold-eligible records. -/
def typicalTax_spec (cache : List (List DayPrice)) (maxPts : Nat) : Option String :=
  mostCommon ((cache.map (fun month =>
    month.filterMap (fun r =>
      if r.points ≤ maxPts then
        match r.tax with
        | some t => if t = "" then none else some t
        | none => none
      else none))).flatten)

/-! ## Decimal rendering lemmas -/

theorem digitChar_isDigit (n : Nat) : (digitChar n).isDigit = true := by
  unfold digitChar
  split <;> decide

theorem digitChar_val (n : Nat) (h : n < 10) : (digitChar n).toNat - 48 = n := by
  interval_cases n <;> decide

theorem isDigit_ne_comma {c : Char} (h : c.isDigit = true) : c ≠ ',' := by
  intro hc
  subst hc
  simp [Char.isDigit] at h

theorem isDigit_ne_dash {c : Char} (h : c.isDigit = true) : c ≠ '-' := by
  intro hc
  subst hc
  simp [Char.isDigit] at h

theorem natToCharsAux_digits (fuel n : Nat) :
    ∀ c ∈ natToCharsAux fuel n, c.isDigit = true := by
  induction fuel generalizing n with
  | zero => simp [natToCharsAux]
  | succ fuel ih =>
    intro c hc
    unfold natToCharsAux at hc
    by_cases h : n < 10
    · simp only [h, if_true, List.mem_singleton] at hc
      subst hc
      exact digitChar_isDigit n
    · simp only [h, if_false, List.mem_append, List.mem_singleton] at hc
      rcases hc with hc | hc
      · exact ih (n / 10) c hc
      · subst hc
        exact digitChar_isDigit (n % 10)

theorem natToCharsAux_ne_nil (fuel n : Nat) (h : n < fuel) :
    natToCharsAux fuel n ≠ [] := by
  cases fuel with
  | zero => omega
  | succ fuel =>
    unfold natToCharsAux
    by_cases h10 : n < 10 <;> simp [h10]

theorem charsToNat_append_last (xs : List Char) (c : Char) :
    charsToNat (xs ++ [c]) = charsToNat xs * 10 + (c.toNat - 48) := by
  simp [charsToNat, List.foldl_append]

theorem charsToNat_natToCharsAux (fuel n : Nat) (h : n < fuel) :
    charsToNat (natToCharsAux fuel n) = n := by
  induction fuel generalizing n with
  | zero => omega
  | succ fuel ih =>
    unfold natToCharsAux
    by_cases h10 : n < 10
    · simp only [h10, if_true]
      show 0 * 10 + ((digitChar n).toNat - 48) = n
      rw [digitChar_val n h10]
      omega
    · simp only [h10, if_false]
      rw [charsToNat_append_last, ih (n / 10) (by omega),
        digitChar_val (n % 10) (Nat.mod_lt n (by norm_num))]
      omega

theorem natToChars_digits (n : Nat) : ∀ c ∈ natToChars n, c.isDigit = true :=
  natToCharsAux_digits (n + 1) n

theorem natToChars_ne_nil (n : Nat) : natToChars n ≠ [] :=
  natToCharsAux_ne_nil (n + 1) n (Nat.lt_succ_self n)

theorem charsToNat_natToChars (n : Nat) : charsToNat (natToChars n) = n :=
  charsToNat_natToCharsAux (n + 1) n (Nat.lt_succ_self n)

/-! ## Minimum and mode lemmas -/

theorem listMin_eq_none_iff (l : List Nat) : listMin l = none ↔ l = [] := by
  cases l with
  | nil => simp [listMin]
  | cons x xs =>
    simp only [listMin]
    cases listMin xs <;> simp

theorem listMin_spec (l : List Nat) (m : Nat) (h : listMin l = some m) :
    m ∈ l ∧ ∀ x ∈ l, m ≤ x := by
  induction l generalizing m with
  | nil => simp [listMin] at h
  | cons x xs ih =>
    simp only [listMin] at h
    cases hxs : listMin xs with
    | none =>
      rw [hxs] at h
      have hnil : xs = [] := (listMin_eq_none_iff xs).mp hxs
      subst hnil
      simp at h ⊢
      omega
    | some m' =>
      rw [hxs] at h
      obtain ⟨hmem, hall⟩ := ih m' hxs
      have hm : m = min x m' := by simpa using h.symm
      constructor
      · rcases min_choice x m' with hc | hc
        · rw [hm, hc]; exact List.mem_cons_self x xs
        · rw [hm, hc]; exact List.mem_cons_of_mem x hmem
      · intro y hy
        rcases List.mem_cons.mp hy with hy | hy
        · subst hy; omega
        · have := hall y hy
          omega

theorem mostCommon_foldl_aux (L : List String) (l : List String) :
    ∀ b : String,
      ∃ t, List.foldl (fun acc x =>
          match acc with
          | none => some x
          | some b' => if countOcc L b' < countOcc L x then some x else some b')
          (some b) l = some t
        ∧ (t = b ∨ t ∈ l)
        ∧ countOcc L b ≤ countOcc L t
        ∧ ∀ x ∈ l, countOcc L x ≤ countOcc L t := by
  induction l with
  | nil => exact fun b => ⟨b, rfl, Or.inl rfl, Nat.le_refl _, by simp⟩
  | cons x xs ih =>
    intro b
    by_cases h : countOcc L b < countOcc L x
    · obtain ⟨t, ht, hmem, hx, hall⟩ := ih x
      refine ⟨t, ?_, ?_, ?_, ?_⟩
      · simpa [h] using ht
      · rcases hmem with hmem | hmem
        · exact Or.inr (hmem ▸ List.mem_cons_self x xs)
        · exact Or.inr (List.mem_cons_of_mem x hmem)
      · omega
      · intro y hy
        rcases List.mem_cons.mp hy with hy | hy
        · subst hy; exact hx
        · exact hall y hy
    · obtain ⟨t, ht, hmem, hb, hall⟩ := ih b
      refine ⟨t, ?_, ?_, hb, ?_⟩
      · simpa [h] using ht
      · rcases hmem with hmem | hmem
        · exact Or.inl hmem
        · exact Or.inr (List.mem_cons_of_mem x hmem)
      · intro y hy
        rcases List.mem_cons.mp hy with hy | hy
        · subst hy; omega
        · exact hall y hy

theorem mostCommon_spec (l : List String) (h : l ≠ []) :
    ∃ t, mostCommon l = some t ∧ t ∈ l ∧
      ∀ x ∈ l, countOcc l x ≤ countOcc l t := by
  cases l with
  | nil => exact absurd rfl h
  | cons x xs =>
    obtain ⟨t, ht, hmem, hx, hall⟩ := mostCommon_foldl_aux (x :: xs) xs x
    refine ⟨t, ?_, ?_, ?_⟩
    · simpa [mostCommon] using ht
    · rcases hmem with hmem | hmem
      · exact hmem ▸ List.mem_cons_self x xs
      · exact List.mem_cons_of_mem x hmem
    · intro y hy
      rcases List.mem_cons.mp hy with hy | hy
      · subst hy; exact hx
      · exact hall y hy

/-! ## Sorted deduplication lemmas -/

theorem mem_insertSorted (x a : Nat) (l : List Nat) :
    a ∈ insertSorted x l ↔ a = x ∨ a ∈ l := by
  induction l with
  | nil => simp [insertSorted]
  | cons y ys ih =>
    unfold insertSorted
    by_cases h1 : x < y
    · simp [h1]
    · by_cases h2 : x = y
      · subst h2
        simp [h1]
      · simp only [h1, if_false, h2, List.mem_cons, ih]
        tauto

theorem insertSorted_ne_nil (x : Nat) (l : List Nat) : insertSorted x l ≠ [] := by
  cases l with
  | nil => simp [insertSorted]
  | cons y ys =>
    unfold insertSorted
    by_cases h1 : x < y
    · simp [h1]
    · by_cases h2 : x = y <;> simp [h1, h2]

theorem head?_insertSorted (x : Nat) (l : List Nat) :
    (insertSorted x l).head? = some x ∨ (insertSorted x l).head? = l.head? := by
  cases l with
  | nil => simp [insertSorted]
  | cons y ys =>
    unfold insertSorted
    by_cases h1 : x < y
    · simp [h1]
    · by_cases h2 : x = y <;> simp [h1, h2]

theorem chain'_insertSorted (x : Nat) (l : List Nat)
    (h : List.Chain' (· < ·) l) : List.Chain' (· < ·) (insertSorted x l) := by
  induction l with
  | nil => simp [insertSorted]
  | cons y ys ih =>
    unfold insertSorted
    by_cases h1 : x < y
    · simp only [h1, if_true]
      exact List.chain'_cons'.mpr ⟨fun z hz => by simp at hz; omega, h⟩
    · by_cases h2 : x = y
      · simpa [h1, h2] using h
      · simp only [h1, if_false, h2]
        have htail : List.Chain' (· < ·) ys := h.tail
        have hy : ∀ z ∈ ys.head?, y < z := (List.chain'_cons'.mp h).1
        refine List.chain'_cons'.mpr ⟨?_, ih htail⟩
        intro z hz
        rcases head?_insertSorted x ys with hh | hh
        · rw [hh] at hz
          simp at hz
          omega
        · rw [hh] at hz
          exact hy z hz

theorem mem_sortedDedup (l : List Nat) (a : Nat) :
    a ∈ sortedDedup l ↔ a ∈ l := by
  induction l with
  | nil => simp [sortedDedup]
  | cons x xs ih =>
    show a ∈ insertSorted x (sortedDedup xs) ↔ _
    rw [mem_insertSorted, ih]
    simp

theorem chain'_sortedDedup (l : List Nat) :
    List.Chain' (· < ·) (sortedDedup l) := by
  induction l with
  | nil => simp [sortedDedup]
  | cons x xs ih => exact chain'_insertSorted x (sortedDedup xs) ih

theorem sortedDedup_eq_nil_iff (l : List Nat) : sortedDedup l = [] ↔ l = [] := by
  cases l with
  | nil => simp [sortedDedup]
  | cons x xs =>
    simp only [sortedDedup, List.foldr_cons]
    exact ⟨fun h => absurd h (insertSorted_ne_nil x _), fun h => by simp at h⟩

/-! ## Comma splitting and joining lemmas -/

theorem splitOnComma_no_comma (p : List Char) (h : ',' ∉ p) :
    splitOnComma p = [p] := by
  induction p with
  | nil => rfl
  | cons c cs ih =>
    have hc : ¬c = ',' := fun hc => h (hc ▸ List.mem_cons_self c cs)
    have hcs : ',' ∉ cs := fun hm => h (List.mem_cons_of_mem c hm)
    simp only [splitOnComma, hc, if_false, ih hcs]

theorem splitOnComma_append (p rest : List Char) (h : ',' ∉ p) :
    splitOnComma (p ++ ',' :: rest) = p :: splitOnComma rest := by
  induction p with
  | nil => simp [splitOnComma]
  | cons c cs ih =>
    have hc : ¬c = ',' := fun hc => h (hc ▸ List.mem_cons_self c cs)
    have hcs : ',' ∉ cs := fun hm => h (List.mem_cons_of_mem c hm)
    simp only [List.cons_append, splitOnComma, hc, if_false]
    rw [show cs.append (',' :: rest) = cs ++ ',' :: rest from rfl, ih hcs]

theorem splitOnComma_joinComma (parts : List (List Char)) (hne : parts ≠ [])
    (h : ∀ p ∈ parts, ',' ∉ p) :
    splitOnComma (joinComma parts) = parts := by
  induction parts with
  | nil => exact absurd rfl hne
  | cons p ps ih =>
    cases ps with
    | nil =>
      show splitOnComma p = [p]
      exact splitOnComma_no_comma p (h p (List.mem_cons_self p []))
    | cons q qs =>
      show splitOnComma (p ++ ',' :: joinComma (q :: qs)) = p :: (q :: qs)
      rw [splitOnComma_append p _ (h p (List.mem_cons_self p _))]
      rw [ih (by simp) (fun r hr => h r (List.mem_cons_of_mem p hr))]

/-! ## Run rendering and expansion lemmas -/

theorem takeWhile_append_cons {α : Type} (p : α → Bool) (xs : List α) (y : α)
    (ys : List α) (hxs : ∀ c ∈ xs, p c = true) (hy : p y = false) :
    (xs ++ y :: ys).takeWhile p = xs ∧ (xs ++ y :: ys).dropWhile p = y :: ys := by
  induction xs with
  | nil => simp [List.takeWhile, List.dropWhile, hy]
  | cons x xs ih =>
    have hx : p x = true := hxs x (List.mem_cons_self x xs)
    obtain ⟨h1, h2⟩ := ih (fun c hc => hxs c (List.mem_cons_of_mem x hc))
    simp [List.takeWhile_cons, List.dropWhile_cons, hx, h1, h2]

theorem natToChars_no_dash (n : Nat) : ∀ c ∈ natToChars n, (c != '-') = true := by
  intro c hc
  have := natToChars_digits n c hc
  simpa using isDigit_ne_dash this

theorem natToChars_no_comma (n : Nat) : ',' ∉ natToChars n := by
  intro hc
  exact isDigit_ne_comma (natToChars_digits n ',' hc) rfl

theorem comma_not_mem_renderRun (s e : Nat) : ',' ∉ renderRun s e := by
  unfold renderRun
  by_cases h : s = e
  · simpa [h] using natToChars_no_comma e
  · simp only [h, if_false, List.mem_append, List.mem_cons]
    rintro (hc | hc | hc)
    · exact natToChars_no_comma s hc
    · exact absurd hc.symm (by decide)
    · exact natToChars_no_comma e hc

theorem renderRun_ne_nil (s e : Nat) : renderRun s e ≠ [] := by
  unfold renderRun
  by_cases h : s = e
  · simpa [h] using natToChars_ne_nil e
  · simp only [h, if_false]
    intro hc
    exact natToChars_ne_nil s (List.append_eq_nil.mp hc).1

theorem expandPart_renderRun (s e : Nat) (h : s ≤ e) (x : Nat) :
    x ∈ expandPart (renderRun s e) ↔ s ≤ x ∧ x ≤ e := by
  unfold renderRun expandPart
  by_cases hse : s = e
  · subst hse
    simp only [if_true]
    have hdrop : (natToChars s).dropWhile (fun c => c != '-') = [] :=
      List.dropWhile_eq_nil_iff.mpr (natToChars_no_dash s)
    rw [hdrop]
    simp [charsToNat_natToChars]
    omega
  · simp only [hse, if_false]
    obtain ⟨htake, hdrop⟩ := takeWhile_append_cons (fun c => c != '-')
      (natToChars s) '-' (natToChars e) (natToChars_no_dash s) (by decide)
    rw [hdrop, htake]
    rw [List.mem_range'_1, charsToNat_natToChars, charsToNat_natToChars]
    omega

theorem runsAux_parts (ds : List Nat) : ∀ start prev : Nat,
    ∀ p ∈ runsAux start prev ds, ',' ∉ p ∧ p ≠ [] := by
  induction ds with
  | nil =>
    intro start prev p hp
    simp only [runsAux, List.mem_singleton] at hp
    exact hp ▸ ⟨comma_not_mem_renderRun start prev, renderRun_ne_nil start prev⟩
  | cons d ds ih =>
    intro start prev p hp
    unfold runsAux at hp
    by_cases hd : d = prev + 1
    · rw [if_pos hd] at hp
      exact ih start d p hp
    · simp only [hd, if_false, List.mem_cons] at hp
      rcases hp with hp | hp
      · exact hp ▸ ⟨comma_not_mem_renderRun start prev, renderRun_ne_nil start prev⟩
      · exact ih d d p hp

theorem runsAux_ne_nil (ds : List Nat) (start prev : Nat) :
    runsAux start prev ds ≠ [] := by
  induction ds generalizing start prev with
  | nil => simp [runsAux]
  | cons d ds ih =>
    unfold runsAux
    by_cases hd : d = prev + 1 <;> simp [hd, ih]

theorem mem_expand_runsAux (ds : List Nat) : ∀ start prev : Nat, start ≤ prev →
    List.Chain (· < ·) prev ds → ∀ x : Nat,
    (x ∈ ((runsAux start prev ds).map expandPart).flatten ↔
      (start ≤ x ∧ x ≤ prev) ∨ x ∈ ds) := by
  induction ds with
  | nil =>
    intro start prev hsp _ x
    simp only [runsAux, List.map_cons, List.map_nil, List.flatten_cons,
      List.flatten_nil, List.append_nil, List.not_mem_nil, or_false]
    exact expandPart_renderRun start prev hsp x
  | cons d ds ih =>
    intro start prev hsp hchain x
    have hpd : prev < d := (List.chain_cons.mp hchain).1
    have hch : List.Chain (· < ·) d ds := (List.chain_cons.mp hchain).2
    unfold runsAux
    by_cases hd : d = prev + 1
    · simp only [hd, if_true]
      rw [ih start (prev + 1) (by omega) (hd ▸ hch) x]
      simp only [List.mem_cons, hd]
      constructor
      · rintro (⟨h1, h2⟩ | hx)
        · by_cases hxp : x ≤ prev
          · exact Or.inl ⟨h1, hxp⟩
          · exact Or.inr (Or.inl (by omega))
        · exact Or.inr (Or.inr hx)
      · rintro (⟨h1, h2⟩ | hx | hx)
        · exact Or.inl ⟨h1, by omega⟩
        · exact Or.inl ⟨by omega, by omega⟩
        · exact Or.inr hx
    · simp only [hd, if_false, List.map_cons, List.flatten_cons, List.mem_append]
      rw [expandPart_renderRun start prev hsp x, ih d d (Nat.le_refl d) hch x]
      simp only [List.mem_cons]
      constructor
      · rintro (⟨h1, h2⟩ | ⟨h1, h2⟩ | hx)
        · exact Or.inl ⟨h1, h2⟩
        · exact Or.inr (Or.inl (by omega))
        · exact Or.inr (Or.inr hx)
      · rintro (⟨h1, h2⟩ | hx | hx)
        · exact Or.inl ⟨h1, h2⟩
        · exact Or.inr (Or.inl (by omega))
        · exact Or.inr (Or.inr hx)

/-! ## Route reducer lemmas -/

theorem scrape_route_eq_none (cache : List (List DayPrice)) (maxPts : Nat)
    (h : listMin (allPts cache maxPts) = none) :
    scrape_route cache maxPts = ⟨cache.map (fun _ => []), none, none⟩ := by
  unfold scrape_route
  rw [h]

theorem scrape_route_eq_some (cache : List (List DayPrice)) (maxPts m : Nat)
    (h : listMin (allPts cache maxPts) = some m) :
    scrape_route cache maxPts =
      ⟨cache.map (fun month =>
          month.filterMap (fun r => if r.points = m then some r.day else none)),
        some m, mostCommon (allTaxes cache)⟩ := by
  unfold scrape_route
  rw [h]

theorem allPts_eq_nil_iff (cache : List (List DayPrice)) (maxPts : Nat) :
    allPts cache maxPts = [] ↔ ∀ month ∈ cache, ∀ r ∈ month, maxPts < r.points := by
  simp only [allPts, List.flatten_eq_nil_iff, List.mem_map]
  constructor
  · intro h month hm r hr
    have h2 := h _ ⟨month, hm, rfl⟩
    rw [List.filterMap_eq_nil_iff] at h2
    have h3 := h2 r hr
    by_contra hc
    simp [Nat.le_of_not_lt hc] at h3
  · rintro h l ⟨month, hm, rfl⟩
    rw [List.filterMap_eq_nil_iff]
    intro r hr
    simp [Nat.not_le_of_lt (h month hm r hr)]

theorem mem_allPts {cache : List (List DayPrice)} {maxPts : Nat}
    {month : List DayPrice} {r : DayPrice} (hm : month ∈ cache) (hr : r ∈ month)
    (h : r.points ≤ maxPts) : r.points ∈ allPts cache maxPts := by
  simp only [allPts, List.mem_flatten, List.mem_map]
  exact ⟨_, ⟨month, hm, rfl⟩, List.mem_filterMap.mpr ⟨r, hr, by simp [h]⟩⟩

/-! ## Claim theorems -/

/-- C1: for every per-month cache and threshold, every day listed in any
month's day list of the `scrape_route` result comes from a record of that
month whose points equal the computed absolute minimum (so a day whose
prices are all higher — even threshold-eligible ones — is never listed),
and when no record anywhere is at or under the threshold every month's
day list is empty. -/
theorem exact_minimum_invariant (cache : List (List DayPrice)) (maxPts : Nat) :
    (∀ i : Nat, ∀ days : List Nat, ∀ d : Nat,
      (scrape_route cache maxPts).monthDays[i]? = some days → d ∈ days →
      ∃ month r, cache[i]? = some month ∧ r ∈ month ∧ r.day = d ∧
        (scrape_route cache maxPts).absMin = some r.points)
    ∧ ((∀ month ∈ cache, ∀ r ∈ month, maxPts < r.points) →
      ∀ days ∈ (scrape_route cache maxPts).monthDays, days = []) := by
  cases hmin : listMin (allPts cache maxPts) with
  | none =>
    rw [scrape_route_eq_none cache maxPts hmin]
    constructor
    · intro i days d hdays hd
      rw [List.getElem?_map] at hdays
      obtain ⟨month, _, he⟩ := Option.map_eq_some'.mp hdays
      rw [← he] at hd
      exact absurd hd (List.not_mem_nil d)
    · intro _ days hdays
      rcases List.mem_map.mp hdays with ⟨month, _, hh⟩
      exact hh.symm
  | some m =>
    rw [scrape_route_eq_some cache maxPts m hmin]
    constructor
    · intro i days d hdays hd
      rw [List.getElem?_map] at hdays
      obtain ⟨month, hc, he⟩ := Option.map_eq_some'.mp hdays
      rw [← he] at hd
      obtain ⟨r, hr, hif⟩ := List.mem_filterMap.mp hd
      by_cases hrp : r.points = m
      · rw [if_pos hrp] at hif
        exact ⟨month, r, hc, hr, Option.some.inj hif, by rw [hrp]⟩
      · rw [if_neg hrp] at hif
        exact absurd hif (by simp)
    · intro h
      have : listMin (allPts cache maxPts) = none := by
        rw [listMin_eq_none_iff]
        exact (allPts_eq_nil_iff cache maxPts).mpr h
      rw [this] at hmin
      exact absurd hmin (by simp)

/-- C1 witness: in the cache whose single month holds day 5 at 4500 and
day 6 at 7500 points with threshold 7500, the listed day 5 indeed comes
from a record priced at the absolute minimum. -/
theorem exact_minimum_invariant_witness :
    ∃ month r, ([[({ day := 5, points := 4500, tax := none } : DayPrice),
        { day := 6, points := 7500, tax := none }]] : List (List DayPrice))[0]? = some month
      ∧ r ∈ month ∧ r.day = 5
      ∧ (scrape_route [[{ day := 5, points := 4500, tax := none },
          { day := 6, points := 7500, tax := none }]] 7500).absMin = some r.points :=
  (exact_minimum_invariant
    [[{ day := 5, points := 4500, tax := none },
      { day := 6, points := 7500, tax := none }]] 7500).1 0 [5] 5 (by decide) (by decide)

/-- C4: when every record of every month is above the threshold, the
route result has undefined minimum and tax and all-empty day lists, every
month cell compresses to the empty string, the summary cells are empty
strings, and the table builder still emits exactly one row per airport. -/
theorem no_availability_row (cache : List (List DayPrice)) (maxPts : Nat)
    (h : ∀ month ∈ cache, ∀ r ∈ month, maxPts < r.points) :
    (scrape_route cache maxPts).absMin = none
    ∧ (scrape_route cache maxPts).typicalTax = none
    ∧ (∀ days ∈ (scrape_route cache maxPts).monthDays, days = [])
    ∧ (∀ days ∈ (scrape_route cache maxPts).monthDays, compress_days days = "")
    ∧ pointsCell (scrape_route cache maxPts).absMin = ""
    ∧ taxCell (scrape_route cache maxPts).typicalTax = ""
    ∧ ∀ (dest : String) (results : List (String × RouteResult × RouteResult)),
        (build_dataframe dest results).length = results.length := by
  have hnil : listMin (allPts cache maxPts) = none := by
    rw [listMin_eq_none_iff]
    exact (allPts_eq_nil_iff cache maxPts).mpr h
  rw [scrape_route_eq_none cache maxPts hnil]
  refine ⟨rfl, rfl, ?_, ?_, rfl, rfl, ?_⟩
  · intro days hdays
    rcases List.mem_map.mp hdays with ⟨_, _, hh⟩
    exact hh.symm
  · intro days hdays
    rcases List.mem_map.mp hdays with ⟨_, _, hh⟩
    rw [← hh]
    rfl
  · intro dest results
    simp [build_dataframe]

/-- C4 witness: a one-month cache holding only a 9000-point record against
threshold 7500 yields undefined minimum and empty summary cells. -/
theorem no_availability_row_witness :
    (scrape_route [[{ day := 1, points := 9000, tax := some "$5" }]] 7500).absMin = none
    ∧ pointsCell (scrape_route [[{ day := 1, points := 9000, tax := some "$5" }]]
        7500).absMin = ""
    ∧ taxCell (scrape_route [[{ day := 1, points := 9000, tax := some "$5" }]]
        7500).typicalTax = "" :=
  ⟨(no_availability_row _ _ (by decide)).1,
    (no_availability_row _ _ (by decide)).2.2.2.2.1,
    (no_availability_row _ _ (by decide)).2.2.2.2.2.1⟩

/-- C5: pass-1 discovery collects a record exactly when its points are at
or under the threshold — points equal to the threshold are collected,
points one above are not. -/
theorem threshold_boundary (maxPts day : Nat) (tax : Option String) :
    allPts [[{ day := day, points := maxPts, tax := tax }]] maxPts = [maxPts]
    ∧ allPts [[{ day := day, points := maxPts + 1, tax := tax }]] maxPts = []
    ∧ ∀ r : DayPrice, (allPts [[r]] maxPts ≠ [] ↔ r.points ≤ maxPts) := by
  refine ⟨?_, ?_, ?_⟩
  · simp [allPts]
  · simp [allPts]
  · intro r
    by_cases h : r.points ≤ maxPts <;> simp [allPts, h]

/-- C5 witness: a 4500-point record against a 4500 threshold is
collected by pass-1 discovery. -/
theorem threshold_boundary_witness :
    allPts [[{ day := 1, points := 4500, tax := none }]] 4500 = [4500] :=
  (threshold_boundary 4500 1 none).1

/-- C2 counterexample: with threshold 5000, a month holding an eligible
4000-point record taxed `$6` and two ineligible 9000-point records taxed
`$19` makes the reducer return `$19` — the over-threshold taxes dominate
the tally — while the claimed eligible-only mode is `$6`. -/
theorem tax_threshold_counterexample :
    (scrape_route [[{ day := 1, points := 4000, tax := some "$6" },
        { day := 2, points := 9000, tax := some "$19" },
        { day := 3, points := 9000, tax := some "$19" }]] 5000).typicalTax = some "$19"
    ∧ typicalTax_spec [[{ day := 1, points := 4000, tax := some "$6" },
        { day := 2, points := 9000, tax := some "$19" },
        { day := 3, points := 9000, tax := some "$19" }]] 5000 = some "$6"
    ∧ some "$19" ≠ (some "$6" : Option String) :=
  ⟨by decide, by decide, by decide⟩

/-- C2 amended: for a route direction with at least one eligible record,
the representative tax is the mode over the taxes of ALL records with a
defined tax — records over the threshold contribute too; it is a value
occurring in that tally whose count is maximal (the source tallies over a
Python set, so ties are resolved in an unspecified order), it is
undefined when no tax was observed, and for eligible observations `$19`,
`$19`, `$6` it is `$19`. -/
theorem typical_tax_mode_of_all_taxes (cache : List (List DayPrice)) (maxPts : Nat)
    (h : ∃ month ∈ cache, ∃ r ∈ month, r.points ≤ maxPts) :
    (scrape_route cache maxPts).typicalTax = mostCommon (allTaxes cache)
    ∧ (allTaxes cache = [] → (scrape_route cache maxPts).typicalTax = none)
    ∧ (allTaxes cache ≠ [] → ∃ t, (scrape_route cache maxPts).typicalTax = some t
        ∧ t ∈ allTaxes cache
        ∧ ∀ u ∈ allTaxes cache, countOcc (allTaxes cache) u ≤ countOcc (allTaxes cache) t)
    ∧ (scrape_route [[{ day := 1, points := 4000, tax := some "$19" },
        { day := 2, points := 4100, tax := some "$19" },
        { day := 3, points := 4200, tax := some "$6" }]] 7500).typicalTax = some "$19" := by
  obtain ⟨month, hm, r, hr, hle⟩ := h
  have hmem := mem_allPts hm hr hle
  have hne : allPts cache maxPts ≠ [] := fun hnil => by simp [hnil] at hmem
  obtain ⟨m, hmin⟩ : ∃ m, listMin (allPts cache maxPts) = some m := by
    cases hl : listMin (allPts cache maxPts) with
    | none => exact absurd ((listMin_eq_none_iff _).mp hl) hne
    | some m => exact ⟨m, rfl⟩
  rw [scrape_route_eq_some cache maxPts m hmin]
  refine ⟨rfl, ?_, ?_, by decide⟩
  · intro htax
    show mostCommon (allTaxes cache) = none
    rw [htax]
    rfl
  · intro htax
    obtain ⟨t, ht, htm, hall⟩ := mostCommon_spec (allTaxes cache) htax
    exact ⟨t, ht, htm, hall⟩

/-- C2 witness: a single eligible taxed record makes the reducer's tax
equal the mode over all observed taxes. -/
theorem typical_tax_mode_witness :
    (scrape_route [[{ day := 1, points := 4000, tax := some "$6" }]] 7500).typicalTax
      = mostCommon (allTaxes [[{ day := 1, points := 4000, tax := some "$6" }]]) :=
  (typical_tax_mode_of_all_taxes [[{ day := 1, points := 4000, tax := some "$6" }]] 7500
    ⟨[{ day := 1, points := 4000, tax := some "$6" }], by decide,
      { day := 1, points := 4000, tax := some "$6" }, by decide, by decide⟩).1

/-- C3 counterexample: the input `"5 .k"` does not match the claimed
parseable shape (no decimal number is immediately followed by `k`), yet
`parse_cell` raises a `ValueError` from `float(".")` instead of returning
the not-parseable signal. -/
theorem parser_raises_counterexample :
    claimShapeB "5 .k" = false ∧ parse_cell "5 .k" = ParseOutcome.error :=
  ⟨by decide, by decide⟩

/-- C3 amended: `parse_cell` returns the not-parseable signal exactly
when the stripped text lacks a leading digit or lacks any digit/dot run
immediately followed by `k`/`K`; when such a run exists but is not a
valid float literal the call raises instead, and the caller
`parse_current_month` silently skips both raised and not-parseable cells,
so neither is fatal. -/
theorem parser_noparse_characterization (s : String) :
    (parse_cell s = ParseOutcome.noparse ↔ lacksShape s = true)
    ∧ (∀ cells : List String, ∀ maxDay : Nat,
        parse_cell s = ParseOutcome.error ∨ parse_cell s = ParseOutcome.noparse →
        parse_current_month (s :: cells) maxDay = parse_current_month cells maxDay) := by
  constructor
  · unfold parse_cell lacksShape
    cases ht : trimChars s.toList with
    | nil => simp
    | cons c cs =>
      by_cases hc : c.isDigit
      · simp only [hc, if_true]
        cases hk : findKToken (c :: cs) with
        | none => simp [hk]
        | some tok =>
          cases htp : tokenPoints tok with
          | none => simp [htp]
          | some pts => simp [htp]
      · simp [hc]
  · intro cells maxDay hs
    unfold parse_current_month
    rw [List.filterMap_cons]
    rcases hs with hs | hs <;> rw [hs]

/-- C3 witness: a cell with no digits at all is reported not parseable. -/
theorem parser_noparse_witness : parse_cell "abc" = ParseOutcome.noparse :=
  (parser_noparse_characterization "abc").1.mpr (by decide)

/-- C6: for every list of days in 1..31, splitting the compressed string
on commas and expanding each first-last range reproduces exactly the set
of distinct days of the input. -/
theorem compress_decompress_roundtrip (days : List Nat)
    (hdays : ∀ d ∈ days, 1 ≤ d ∧ d ≤ 31) (x : Nat) :
    x ∈ decompress (compress_days days) ↔ x ∈ days := by
  cases hsd : sortedDedup days with
  | nil =>
    have h0 : days = [] := (sortedDedup_eq_nil_iff days).mp hsd
    subst h0
    have he : decompress (compress_days []) = [] := rfl
    rw [he]
  | cons d ds =>
    have hcomp : compress_days days = String.mk (joinComma (runsAux d d ds)) := by
      unfold compress_days
      rw [hsd]
    have hparts := runsAux_parts ds d d
    have hpne : runsAux d d ds ≠ [] := runsAux_ne_nil ds d d
    have hjoin_ne : joinComma (runsAux d d ds) ≠ [] := by
      cases hr : runsAux d d ds with
      | nil => exact absurd hr hpne
      | cons p ps =>
        have hp := hparts p (by rw [hr]; exact List.mem_cons_self p ps)
        cases ps with
        | nil => simpa [joinComma] using hp.2
        | cons q qs => simp [joinComma]
    have hchain : List.Chain (· < ·) d ds := by
      have hch := chain'_sortedDedup days
      rw [hsd] at hch
      exact hch
    rw [hcomp]
    cases hl : joinComma (runsAux d d ds) with
    | nil => exact absurd hl hjoin_ne
    | cons c cs =>
      have hdec : decompress (String.mk (c :: cs)) =
          ((splitOnComma (c :: cs)).map expandPart).flatten := rfl
      rw [hdec, ← hl,
        splitOnComma_joinComma _ hpne (fun p hp => (hparts p hp).1),
        mem_expand_runsAux ds d d (Nat.le_refl d) hchain x]
      have hmemd : x ∈ days ↔ x = d ∨ x ∈ ds := by
        rw [← mem_sortedDedup days x, hsd, List.mem_cons]
      constructor
      · rintro (⟨h1, h2⟩ | hx)
        · exact hmemd.mpr (Or.inl (by omega))
        · exact hmemd.mpr (Or.inr hx)
      · intro hxd
        rcases hmemd.mp hxd with hx | hx
        · exact Or.inl (by omega)
        · exact Or.inr hx

/-- C6 witness: day 2 survives the round trip through `"1-3"`. -/
theorem compress_decompress_roundtrip_witness :
    2 ∈ decompress (compress_days [1, 2, 3]) :=
  (compress_decompress_roundtrip [1, 2, 3] (by decide) 2).mpr (by decide)

/-- C7: `compress_days` collapses duplicates, sorts ascending, groups
consecutive runs, renders singleton runs as a bare number and longer runs
as first-last, joins with commas, and maps the empty input to the empty
string — checked on the specification's examples. -/
theorem compress_days_examples :
    compress_days [] = ""
    ∧ compress_days [5] = "5"
    ∧ compress_days [1, 2, 3] = "1-3"
    ∧ compress_days [3, 1, 2, 2] = "1-3"
    ∧ compress_days [1, 2, 3, 7, 9, 10] = "1-3,7,9-10" := by
  refine ⟨by decide, by decide, by decide, by decide, by decide⟩

/-- C8: the cell parser extracts the leading day, the `k`-suffixed
points value scaled by 1000 (case-insensitively, with the tax token
optional), and the `+ $amount` tax — checked on the specification's
examples. -/
theorem parse_cell_examples :
    parse_cell "9\n20k +$6" = ParseOutcome.cell 9 20000 (some "$6")
    ∧ parse_cell "1\n4.5k +$19" = ParseOutcome.cell 1 4500 (some "$19")
    ∧ parse_cell "12\n20K" = ParseOutcome.cell 12 20000 none := by
  refine ⟨by decide, by decide, by decide⟩

/-- C9: `fmt_points` renders multiples of 1000 as the quotient followed
by `k` with no decimal point, and every other value with exactly one
decimal digit before the `k`; in particular on 5000, 4500, 7500 and
12000. -/
theorem fmt_points_spec :
    (∀ n : Nat, fmt_points (1000 * n) = toString n ++ "k")
    ∧ (∀ pts : Nat, pts % 1000 ≠ 0 →
        ∃ a b : Nat, b < 10 ∧ fmt_points pts = toString a ++ "." ++ toString b ++ "k")
    ∧ fmt_points 5000 = "5k" ∧ fmt_points 4500 = "4.5k"
    ∧ fmt_points 7500 = "7.5k" ∧ fmt_points 12000 = "12k" := by
  refine ⟨?_, ?_, by decide, by decide, by decide, by decide⟩
  · intro n
    have h1 : 1000 * n % 1000 = 0 := Nat.mul_mod_right 1000 n
    have h2 : 1000 * n / 1000 = n := Nat.mul_div_cancel_left n (by norm_num)
    simp [fmt_points, h1, h2]
  · intro pts h
    exact ⟨roundTenths pts / 10, roundTenths pts % 10, Nat.mod_lt _ (by norm_num),
      by simp [fmt_points, h]⟩

/-- C9 witness: 4500 points renders with exactly one decimal digit. -/
theorem fmt_points_spec_witness :
    ∃ a b : Nat, b < 10 ∧ fmt_points 4500 = toString a ++ "." ++ toString b ++ "k" :=
  fmt_points_spec.2.1 4500 (by decide)

/-- C10: a route whose only record costs 0 points gets absolute minimum
0, yet the summary points cell renders as the empty string (the builder
tests truthiness, and `0` is falsy) even though `fmt_points 0` would be
`"0k"` — indistinguishable in the output from no availability. -/
theorem zero_min_renders_empty :
    (scrape_route [[{ day := 1, points := 0, tax := none }]] 7500).absMin = some 0
    ∧ pointsCell ((scrape_route [[{ day := 1, points := 0, tax := none }]]
        7500).absMin) = ""
    ∧ fmt_points 0 = "0k"
    ∧ pointsCell (some 0) = "" := by
  refine ⟨by decide, by decide, by decide, by decide⟩

end AlaskaScraper
